import Mathlib

/-!
Verification development for the InformationEntropy repository
(src/main.py and src/glove.py).

The Python code works on NumPy float arrays; we model floating-point
numbers by real numbers.  A computation whose NumPy result is NaN
(for example `np.average([])`, or `scipy.stats.entropy` of a weight
list whose sum is zero, where the normalisation `pk / sum(pk)`
performs `0.0 / 0.0`) is modelled by `none : Option ℝ`; an ordinary
real result `r` is modelled by `some r`.

Tokens: `get_connections` iterates over a paragraph string, so the
tokens of the source are the characters of the paragraph; their
identity only matters through the embedding lookup, so we model the
token alphabet by `ℕ`.  A paragraph is its list of tokens, and its
Python `len` (character count) is the length of that list.
-/

/-- Tokens of a paragraph (the characters of the paragraph string in the
source); modelled as an abstract countable alphabet. -/
abbrev Token := ℕ

/-- An embedding vector (a NumPy 1-d float array in the source). -/
abbrev Vec := List ℝ

/-- Componentwise difference of two vectors, as NumPy computes
`a - b` for two arrays of the same shape. -/
def vecSub (a b : Vec) : Vec := List.zipWith (fun x y => x - y) a b

/-- Model of `np.linalg.norm` (the default 2-norm): the Euclidean norm
of a vector, from `euclidean_norm` in src/main.py line 16. -/
noncomputable def euclidean_norm (v : Vec) : ℝ :=
  Real.sqrt ((v.map fun x => x ^ 2).sum)

/-- Model of the Python slice `l[:k]` for an arbitrary integer `k`:
for `0 ≤ k` it keeps the first `k` elements, for `k < 0` it keeps all
but the last `-k` elements (`max 0 (len l + k)` elements). -/
def pySlice {α : Type} (l : List α) (k : ℤ) : List α :=
  l.take (if 0 ≤ k then k.toNat else ((l.length : ℤ) + k).toNat)

/-- Model of `scipy.stats.entropy(pk, base=2)` as called in
src/main.py lines 35-36.  scipy normalises `pk` to `pk / sum(pk)`,
applies `entr` (`-x * ln x`, with `entr 0 = 0`, which `Real.log 0 = 0`
gives for free), sums, and divides by `ln 2`.  When the sum is zero
and the list is non-empty the normalisation computes `0.0 / 0.0 = NaN`
(or `x / 0.0 = ±inf`), and when a normalised weight is negative `entr`
returns `-inf`; both non-real outcomes are modelled by `none`. -/
noncomputable def scipyEntropyBase2 (pk : List ℝ) : Option ℝ :=
  if pk.sum = 0 ∧ pk ≠ [] then none
  else if ∃ x ∈ pk, x / pk.sum < 0 then none
  else some ((-((pk.map fun x => x / pk.sum * Real.log (x / pk.sum)).sum)) / Real.log 2)

/-- Model of `information_of_statement` (src/main.py lines 20-37):
`max_ent - ent` where `ent` is the base-2 scipy entropy of the second
components of `doc` and `max_ent` is the base-2 scipy entropy of
`[equal_vocab_probability for x in range(len(doc))]`.  A NaN in either
entropy propagates through the subtraction, hence the `Option`. -/
noncomputable def information_of_statement {α : Type} (doc : List (α × ℝ))
    (equal_vocab_probability : ℝ) : Option ℝ :=
  match scipyEntropyBase2 ((List.range doc.length).map fun _ => equal_vocab_probability),
      scipyEntropyBase2 (doc.map fun d => d.2) with
  | some max_ent, some ent => some (max_ent - ent)
  | _, _ => none

/-- The list of Euclidean distances from `target` to each member of
`arrays`, in corpus order (src/main.py line 287). -/
noncomputable def densityDistances (arrays : List Vec) (target : Vec) : List ℝ :=
  arrays.map fun arr => euclidean_norm (vecSub arr target)

/-- The distances selected by `[distances[i] for i in
np.argsort(distances)[:k]]` in `find_k_closest_avg`: indexing the
distance list by the first `k` entries of a sorting permutation of its
indices yields exactly the first `k` entries of the sorted distance
list, whatever tie-break `argsort` uses. -/
noncomputable def selectedDistances (arrays : List Vec) (target : Vec) (k : ℤ) : List ℝ :=
  pySlice (List.insertionSort (fun a b => a ≤ b) (densityDistances arrays target)) k

/-- Model of `find_k_closest_avg` (src/main.py lines 278-293): compute
the distances, select the `k` smallest, and return `np.average` of the
selection.  `np.average` of an empty selection is NaN, modelled by
`none`; no validation of `k` is performed anywhere. -/
noncomputable def find_k_closest_avg (arrays : List Vec) (target : Vec) (k : ℤ) : Option ℝ :=
  if selectedDistances arrays target k = [] then none
  else some ((selectedDistances arrays target k).sum /
    ((selectedDistances arrays target k).length : ℝ))

/-- Model of Python `random.randint lo hi` (inclusive bounds) as used
by src/glove.py line 31: the draw is determined by the state `seed` of
the pseudo-random generator and always lies in `[lo, hi]`. -/
def pyRandint (lo hi seed : ℕ) : ℕ := lo + seed % (hi - lo + 1)

/-- Model of `get_glove_embedding` (src/glove.py lines 27-31): look the
word up in the loaded table; on a `KeyError` return the fallback
`np.array([random.randint(0, 600)] * 50)`, fifty copies of one random
integer.  The table and the generator state are explicit parameters
(in the source they are module-level globals). -/
def get_glove_embedding (table : Token → Option Vec) (seed : ℕ) (word : Token) : Vec :=
  match table word with
  | some v => v
  | none => List.replicate 50 ((pyRandint 0 600 seed : ℕ) : ℝ)

/-- Model of `get_connections` (src/main.py lines 255-260): for each
adjacent pair of tokens (`zip(paragraph, paragraph[1:])`) append the
difference of their embeddings.  The embedding lookup `emb` stands for
`get_glove_embedding` with its table and random state fixed. -/
def get_connections (emb : Token → Vec) (paragraph : List Token) : List Vec :=
  (paragraph.zip paragraph.tail).map fun p => vecSub (emb p.1) (emb p.2)

/-- Model of `process_text` (src/main.py lines 263-272): iterate over
the paragraphs of the document (`doc.split("\n")` in the source),
skip every paragraph of length `< 100`, and concatenate the
connection lists of the remaining paragraphs. -/
def process_text (emb : Token → Vec) : List (List Token) → List Vec
  | [] => []
  | p :: rest =>
    if p.length < 100 then process_text emb rest
    else get_connections emb p ++ process_text emb rest

/-- Model of `tokenized_probabilities` (src/main.py lines 296-299):
pair each connection vector of the paragraph with its density proxy
`find_k_closest_avg(connections, d, 3)`. -/
noncomputable def tokenized_probabilities (emb : Token → Vec) (paragraph : List Token)
    (connections : List Vec) : List (Vec × Option ℝ) :=
  (get_connections emb paragraph).map fun d => (d, find_k_closest_avg connections d 3)

/-- Collect a list of pairs whose second components are `Option`s into
an `Option` of a pair list: `none` as soon as one proxy is NaN.  In
the source a NaN density proxy makes the scipy entropy of the proxy
list NaN, so the paragraph score is NaN exactly when some proxy is;
sequencing the options models that propagation. -/
def collectPairs : List (Vec × Option ℝ) → Option (List (Vec × ℝ))
  | [] => some []
  | (_, none) :: _ => none
  | (v, some r) :: rest => (collectPairs rest).map fun t => (v, r) :: t

/-- Score of one qualifying paragraph in the module-level loop
(src/main.py line 305): `information_of_statement` of its
token-probability pairs with `equal_vocab_probability = 1 / len(doc)`. -/
noncomputable def score_paragraph (emb : Token → Vec) (connections : List Vec)
    (paragraph : List Token) : Option ℝ :=
  (collectPairs (tokenized_probabilities emb paragraph connections)).bind fun pairs =>
    information_of_statement pairs (1 / (paragraph.length : ℝ))

/-- Model of the module-level scoring loop (src/main.py lines 302-305):
enumerate the paragraphs from index `idx`, skip those of length
`< 100`, and emit `(index, score)` for the rest, in document order. -/
noncomputable def scoring_loop (emb : Token → Vec) (connections : List Vec) :
    ℕ → List (List Token) → List (ℕ × Option ℝ)
  | _, [] => []
  | idx, p :: rest =>
    if p.length < 100 then scoring_loop emb connections (idx + 1) rest
    else (idx, score_paragraph emb connections p) :: scoring_loop emb connections (idx + 1) rest

/-- The whole pipeline of src/main.py: build the shared reference
corpus with `process_text`, then run the scoring loop over the same
document starting at index 0. -/
noncomputable def run_pipeline (emb : Token → Vec) (doc : List (List Token)) :
    List (ℕ × Option ℝ) :=
  scoring_loop emb (process_text emb doc) 0 doc

/-- A fixed embedding used only to instantiate theorems on concrete
inputs. -/
def embZero : Token → Vec := fun _ => []

/-- Claim C3, counterexample: called on the empty pairs sequence,
`information_of_statement` does not fail with an `EmptyInput`
condition; scipy's entropy of an empty list is `-0.0`, so the call
returns the value 0. -/
theorem information_empty_counterexample :
    information_of_statement ([] : List (Vec × ℝ)) 1 = some 0 := by
  unfold information_of_statement
  simp [scipyEntropyBase2]

/-- Claim C3, amended: for the empty input sequence the scorer returns
the value 0 (both entropies evaluate to `-0.0`); no failure occurs. -/
theorem information_empty_returns_zero (α : Type) (p : ℝ) :
    information_of_statement ([] : List (α × ℝ)) p = some 0 := by
  unfold information_of_statement
  simp [scipyEntropyBase2]

/-- Claim C9: with a fixed deterministic embedding lookup (fallback
included) and a fixed document, two runs of the full pipeline produce
identical ordered sequences of (paragraph index, score) pairs. -/
theorem pipeline_deterministic (emb1 emb2 : Token → Vec) (doc : List (List Token))
    (h : ∀ t, emb1 t = emb2 t) :
    run_pipeline emb1 doc = run_pipeline emb2 doc := by
  have he : emb1 = emb2 := funext h
  rw [he]

/-- Witness for `pipeline_deterministic` at a concrete embedding and
document. -/
theorem pipeline_deterministic_witness :
    run_pipeline embZero [[0, 1]] = run_pipeline embZero [[0, 1]] :=
  pipeline_deterministic embZero embZero [[0, 1]] (fun _ => rfl)

/-- Claim C10: for a word absent from the table, the fallback vector
returned by `get_glove_embedding` has exactly 50 components, all equal
to one and the same integer value between 0 and 600 inclusive. -/
theorem fallback_embedding_spec (table : Token → Option Vec) (seed : ℕ) (word : Token)
    (h : table word = none) :
    (get_glove_embedding table seed word).length = 50 ∧
    ∃ c : ℕ, c ≤ 600 ∧ ∀ x ∈ get_glove_embedding table seed word, x = (c : ℝ) := by
  have hgw : get_glove_embedding table seed word
      = List.replicate 50 ((pyRandint 0 600 seed : ℕ) : ℝ) := by
    unfold get_glove_embedding
    rw [h]
  rw [hgw]
  refine ⟨by simp, pyRandint 0 600 seed, ?_, ?_⟩
  · unfold pyRandint
    have : seed % 601 < 601 := Nat.mod_lt _ (by omega)
    omega
  · intro x hx
    exact List.eq_of_mem_replicate hx

/-- Witness for `fallback_embedding_spec` on a concrete empty table. -/
theorem fallback_embedding_spec_witness :
    (get_glove_embedding (fun _ => none) 0 0).length = 50 ∧
    ∃ c : ℕ, c ≤ 600 ∧ ∀ x ∈ get_glove_embedding (fun _ => none) 0 0, x = (c : ℝ) :=
  fallback_embedding_spec (fun _ => none) 0 0 rfl

/-- Claim C2, counterexample: on the spec's concrete scenario the
density-proxy sequence is `[0, 0]`; scipy's normalisation then divides
by the zero sum, the entropy is NaN, and `information_of_statement`
returns NaN (modelled `none`) instead of the claimed score 0. -/
theorem information_zero_proxies_counterexample :
    information_of_statement
      [(([-1, 0] : Vec), (0 : ℝ)), (([1, -1] : Vec), (0 : ℝ))] (1 / 2) = none := by
  unfold information_of_statement
  have hB : scipyEntropyBase2
      ([(([-1, 0] : Vec), (0 : ℝ)), (([1, -1] : Vec), (0 : ℝ))].map fun d => d.2) = none := by
    rw [scipyEntropyBase2, if_pos]
    exact ⟨by simp, by simp⟩
  rw [hB]
  cases scipyEntropyBase2 ((List.range
      [(([-1, 0] : Vec), (0 : ℝ)), (([1, -1] : Vec), (0 : ℝ))].length).map
      fun _ => (1 : ℝ) / 2) <;> rfl

/-- Claim C2, amended: for any non-empty pairs sequence all of whose
density proxies are 0, the scorer returns NaN (modelled `none`), not
0: the normalisation `pk / sum(pk)` divides by zero. -/
theorem information_all_zero_proxies_nan {α : Type} (doc : List (α × ℝ)) (p : ℝ)
    (hne : doc ≠ []) (hz : ∀ x ∈ doc.map (fun d => d.2), x = 0) :
    information_of_statement doc p = none := by
  unfold information_of_statement
  have hB : scipyEntropyBase2 (doc.map fun d => d.2) = none := by
    rw [scipyEntropyBase2, if_pos]
    refine ⟨List.sum_eq_zero hz, ?_⟩
    intro hc
    exact hne (List.map_eq_nil_iff.mp hc)
  rw [hB]
  cases scipyEntropyBase2 ((List.range doc.length).map fun _ => p) <;> rfl

/-- Witness for `information_all_zero_proxies_nan` on a one-pair
sequence with proxy 0. -/
theorem information_all_zero_proxies_nan_witness :
    information_of_statement [(([] : Vec), (0 : ℝ))] 1 = none :=
  information_all_zero_proxies_nan [(([] : Vec), (0 : ℝ))] 1 (by simp) (by simp)

/-- Element law of `get_connections`, proved by structural induction:
the i-th connection is the embedding difference of the i-th and
(i+1)-st tokens. -/
theorem get_connections_get? (emb : Token → Vec) (p : List Token) :
    ∀ (i : ℕ) (a b : Token), p.get? i = some a → p.get? (i + 1) = some b →
      (get_connections emb p).get? i = some (vecSub (emb a) (emb b)) := by
  induction p with
  | nil =>
    intro i a b h1 _
    simp [List.get?] at h1
  | cons t rest ih =>
    intro i a b h1 h2
    cases rest with
    | nil =>
      cases i with
      | zero => simp [List.get?] at h2
      | succ j => simp [List.get?] at h1
    | cons t2 rest2 =>
      cases i with
      | zero =>
        rw [List.get?_cons_zero] at h1
        rw [List.get?_cons_succ, List.get?_cons_zero] at h2
        injection h1 with h1
        injection h2 with h2
        subst h1
        subst h2
        rfl
      | succ j =>
        rw [List.get?_cons_succ] at h1
        rw [List.get?_cons_succ] at h2
        exact ih j a b h1 h2

/-- Claim C7: for every token sequence, `get_connections` returns
exactly `max (n - 1) 0` transition vectors (`n - 1` in truncated
natural subtraction), and its i-th element is the componentwise
difference of the embeddings of tokens i and i+1. -/
theorem get_connections_spec (emb : Token → Vec) (paragraph : List Token) :
    (get_connections emb paragraph).length = paragraph.length - 1 ∧
    ∀ (i : ℕ) (a b : Token), paragraph.get? i = some a → paragraph.get? (i + 1) = some b →
      (get_connections emb paragraph).get? i = some (vecSub (emb a) (emb b)) := by
  constructor
  · unfold get_connections
    rw [List.length_map, List.length_zip, List.length_tail]
    omega
  · exact get_connections_get? emb paragraph

/-- Witness for `get_connections_spec`: a concrete three-token
paragraph. -/
theorem get_connections_spec_witness :
    (get_connections embZero [0, 1, 2]).length = ([0, 1, 2] : List Token).length - 1 ∧
    (get_connections embZero [0, 1, 2]).get? 0 = some (vecSub (embZero 0) (embZero 1)) :=
  ⟨(get_connections_spec embZero [0, 1, 2]).1,
   (get_connections_spec embZero [0, 1, 2]).2 0 0 1 rfl rfl⟩

/-- A short paragraph inserted anywhere in the document leaves the
reference corpus built by `process_text` unchanged. -/
theorem process_text_skip (emb : Token → Vec) (p : List Token) (hp : p.length < 100) :
    ∀ pre post, process_text emb (pre ++ p :: post) = process_text emb (pre ++ post) := by
  intro pre
  induction pre with
  | nil =>
    intro post
    simp only [List.nil_append, process_text]
    rw [if_pos hp]
  | cons a pre ih =>
    intro post
    show process_text emb (a :: (pre ++ p :: post)) = process_text emb (a :: (pre ++ post))
    simp only [process_text]
    rw [ih post]

/-- Every pair emitted by the scoring loop started at counter `j`
carries an index `i ≥ j` that points at a qualifying paragraph
(length at least 100) of the document. -/
theorem scoring_loop_mem (emb : Token → Vec) (c : List Vec) (doc : List (List Token)) :
    ∀ (j i : ℕ) (s : Option ℝ), (i, s) ∈ scoring_loop emb c j doc →
      j ≤ i ∧ ∃ q, doc.get? (i - j) = some q ∧ 100 ≤ q.length := by
  induction doc with
  | nil =>
    intro j i s h
    simp [scoring_loop] at h
  | cons p rest ih =>
    intro j i s h
    by_cases hp : p.length < 100
    · rw [scoring_loop, if_pos hp] at h
      obtain ⟨hji, q, hq, hql⟩ := ih (j + 1) i s h
      refine ⟨by omega, q, ?_, hql⟩
      have hidx : i - j = (i - (j + 1)) + 1 := by omega
      rw [hidx, List.get?_cons_succ]
      exact hq
    · rw [scoring_loop, if_neg hp] at h
      rcases List.mem_cons.mp h with heq | hmem
      · have hi : i = j := congrArg Prod.fst heq
        subst hi
        exact ⟨le_refl i, p, by simp, by omega⟩
      · obtain ⟨hji, q, hq, hql⟩ := ih (j + 1) i s hmem
        refine ⟨by omega, q, ?_, hql⟩
        have hidx : i - j = (i - (j + 1)) + 1 := by omega
        rw [hidx, List.get?_cons_succ]
        exact hq

/-- A document all of whose paragraphs are short yields an empty
scoring loop output, whatever the counter. -/
theorem scoring_loop_all_short (emb : Token → Vec) (c : List Vec) :
    ∀ (doc : List (List Token)), (∀ q ∈ doc, q.length < 100) →
      ∀ j, scoring_loop emb c j doc = [] := by
  intro doc
  induction doc with
  | nil =>
    intro _ j
    rfl
  | cons p rest ih =>
    intro h j
    rw [scoring_loop, if_pos (h p (List.mem_cons_self p rest))]
    exact ih (fun q hq => h q (List.mem_cons_of_mem p hq)) (j + 1)

/-- Claim C8: a paragraph of character length below 100 contributes no
transition vectors to the reference corpus and receives no entry in
the pipeline output; a document with no qualifying paragraph produces
the empty output (a value, not a failure). -/
theorem short_paragraphs_skipped (emb : Token → Vec) (doc pre post : List (List Token))
    (p : List Token) :
    (p.length < 100 → process_text emb (pre ++ p :: post) = process_text emb (pre ++ post)) ∧
    (∀ (i : ℕ) (q : List Token) (s : Option ℝ),
      doc.get? i = some q → q.length < 100 → (i, s) ∉ run_pipeline emb doc) ∧
    ((∀ q ∈ doc, q.length < 100) → run_pipeline emb doc = []) := by
  refine ⟨fun hp => process_text_skip emb p hp pre post, ?_, ?_⟩
  · intro i q s hq hql hmem
    obtain ⟨-, q2, hq2, hq2l⟩ := scoring_loop_mem emb (process_text emb doc) doc 0 i s hmem
    rw [Nat.sub_zero, hq] at hq2
    injection hq2 with hq2
    subst hq2
    omega
  · intro h
    exact scoring_loop_all_short emb (process_text emb doc) doc h 0

/-- Witness for `short_paragraphs_skipped`: a one-token paragraph is
dropped from the corpus, and a document with only that paragraph
produces the empty output. -/
theorem short_paragraphs_skipped_witness :
    process_text embZero ([] ++ [0] :: [List.replicate 100 0]) =
      process_text embZero ([] ++ [List.replicate 100 0]) ∧
    run_pipeline embZero [[0]] = [] :=
  ⟨(short_paragraphs_skipped embZero [] [] [List.replicate 100 0] [0]).1 (by simp),
   (short_paragraphs_skipped embZero [[0]] [] [] []).2.2 (by simp)⟩

/-- Claim C1, counterexample: the density call on a corpus of size 2
with k = 5 does not fail with an `InvalidK` condition; the slice
`argsort(distances)[:5]` silently clamps to both indices and the call
returns the mean of the two distances (here 0 and 2, mean 1). -/
theorem find_k_invalid_k_counterexample :
    find_k_closest_avg [[(0 : ℝ)], [(2 : ℝ)]] [(0 : ℝ)] 5 = some 1 := by
  have h4 : Real.sqrt 4 = 2 := by
    rw [show (4 : ℝ) = 2 ^ 2 by norm_num]
    exact Real.sqrt_sq (by norm_num)
  have e1 : euclidean_norm (vecSub [(0 : ℝ)] [(0 : ℝ)]) = 0 := by
    unfold euclidean_norm vecSub
    norm_num
  have e2 : euclidean_norm (vecSub [(2 : ℝ)] [(0 : ℝ)]) = 2 := by
    unfold euclidean_norm vecSub
    norm_num [h4]
  have hd : densityDistances [[(0 : ℝ)], [(2 : ℝ)]] [(0 : ℝ)] = [0, 2] := by
    unfold densityDistances
    rw [List.map_cons, List.map_cons, List.map_nil, e1, e2]
  have hsort : List.insertionSort (fun a b : ℝ => a ≤ b) [0, 2] = [0, 2] := by
    apply List.Sorted.insertionSort_eq
    simp [List.sorted_cons]
  have hsel : selectedDistances [[(0 : ℝ)], [(2 : ℝ)]] [(0 : ℝ)] 5 = [0, 2] := by
    unfold selectedDistances
    rw [hd, hsort]
    rfl
  rw [find_k_closest_avg, hsel, if_neg (show ([0, 2] : List ℝ) ≠ [] by simp)]
  norm_num

/-- Claim C1, amended: `find_k_closest_avg` validates nothing about k.
For any non-empty corpus and any k at least the corpus size it returns
the mean of all the corpus distances, and for k = 0 the selection is
empty and the result is NaN (`none`); no `InvalidK` condition exists
in the code. -/
theorem find_k_no_validation (arrays : List Vec) (target : Vec) (k : ℤ)
    (h1 : arrays ≠ []) (h2 : (arrays.length : ℤ) ≤ k) :
    find_k_closest_avg arrays target k =
      some ((densityDistances arrays target).sum / (arrays.length : ℝ)) ∧
    find_k_closest_avg arrays target 0 = none := by
  have hperm := List.perm_insertionSort (fun a b : ℝ => a ≤ b) (densityDistances arrays target)
  have hdlen : (densityDistances arrays target).length = arrays.length :=
    List.length_map _ _
  have hslen : (List.insertionSort (fun a b : ℝ => a ≤ b)
      (densityDistances arrays target)).length = arrays.length := by
    rw [hperm.length_eq, hdlen]
  have hk0 : (0 : ℤ) ≤ k := by omega
  constructor
  · have hsel : selectedDistances arrays target k =
        List.insertionSort (fun a b : ℝ => a ≤ b) (densityDistances arrays target) := by
      unfold selectedDistances pySlice
      rw [if_pos hk0]
      apply List.take_of_length_le
      rw [hslen]
      omega
    have hne : selectedDistances arrays target k ≠ [] := by
      rw [hsel]
      apply List.length_pos.mp
      rw [hslen]
      have : arrays.length ≠ 0 := fun hc => h1 (List.length_eq_zero.mp hc)
      omega
    rw [find_k_closest_avg, if_neg hne, hsel, hperm.sum_eq, hslen]
  · have hsel0 : selectedDistances arrays target 0 = [] := by
      unfold selectedDistances pySlice
      rfl
    rw [find_k_closest_avg, if_pos hsel0]

/-- Witness for `find_k_no_validation` on the size-2 corpus of the
invalid-k scenario. -/
theorem find_k_no_validation_witness :
    find_k_closest_avg [[(0 : ℝ)], [(2 : ℝ)]] [(0 : ℝ)] 5 =
      some ((densityDistances [[(0 : ℝ)], [(2 : ℝ)]] [(0 : ℝ)]).sum /
        ((([[(0 : ℝ)], [(2 : ℝ)]] : List Vec).length : ℕ) : ℝ)) ∧
    find_k_closest_avg [[(0 : ℝ)], [(2 : ℝ)]] [(0 : ℝ)] 0 = none :=
  find_k_no_validation [[(0 : ℝ)], [(2 : ℝ)]] [(0 : ℝ)] 5 (by simp) (by simp)

/-- Claim C6: for 1 ≤ k ≤ |corpus|, `find_k_closest_avg` returns the
scalar arithmetic mean of the k smallest Euclidean distances from the
target to the corpus members (the distance list splits, up to
permutation, into a selected part of size k whose members are all ≤
the rest, and the result is the selected sum over k); for k = 1 the
result is the minimum distance. -/
theorem find_k_mean_of_k_smallest (arrays : List Vec) (target : Vec) (k : ℤ)
    (hk1 : 1 ≤ k) (hk2 : k ≤ (arrays.length : ℤ)) :
    ∃ sel rest, List.Perm (densityDistances arrays target) (sel ++ rest) ∧
      (sel.length : ℤ) = k ∧
      (∀ x ∈ sel, ∀ y ∈ rest, x ≤ y) ∧
      find_k_closest_avg arrays target k = some (sel.sum / (k : ℝ)) ∧
      (k = 1 → ∃ m, m ∈ densityDistances arrays target ∧
        (∀ d ∈ densityDistances arrays target, m ≤ d) ∧
        find_k_closest_avg arrays target 1 = some m) := by
  have hperm := List.perm_insertionSort (fun a b : ℝ => a ≤ b) (densityDistances arrays target)
  have hsort := List.sorted_insertionSort (fun a b : ℝ => a ≤ b) (densityDistances arrays target)
  have hdlen : (densityDistances arrays target).length = arrays.length :=
    List.length_map _ _
  have hslen : (List.insertionSort (fun a b : ℝ => a ≤ b)
      (densityDistances arrays target)).length = arrays.length := by
    rw [hperm.length_eq, hdlen]
  have hk0 : (0 : ℤ) ≤ k := by omega
  have hkn : k.toNat ≤ (List.insertionSort (fun a b : ℝ => a ≤ b)
      (densityDistances arrays target)).length := by
    rw [hslen]
    omega
  have hsel_eq : selectedDistances arrays target k =
      (List.insertionSort (fun a b : ℝ => a ≤ b) (densityDistances arrays target)).take k.toNat := by
    unfold selectedDistances pySlice
    rw [if_pos hk0]
  have hsellen : (selectedDistances arrays target k).length = k.toNat := by
    rw [hsel_eq, List.length_take]
    omega
  have hselne : selectedDistances arrays target k ≠ [] := by
    apply List.length_pos.mp
    rw [hsellen]
    omega
  refine ⟨(List.insertionSort (fun a b : ℝ => a ≤ b) (densityDistances arrays target)).take k.toNat,
    (List.insertionSort (fun a b : ℝ => a ≤ b) (densityDistances arrays target)).drop k.toNat,
    ?_, ?_, ?_, ?_, ?_⟩
  · rw [List.take_append_drop]
    exact hperm.symm
  · rw [List.length_take]
    omega
  · intro x hx y hy
    exact hsort.rel_of_mem_take_of_mem_drop hx hy
  · rw [find_k_closest_avg, if_neg hselne, hsel_eq, ← hsel_eq, hsellen]
    congr 1
    have hcast : ((k.toNat : ℕ) : ℝ) = ((k : ℤ) : ℝ) := by
      rw [← Int.toNat_of_nonneg hk0]
      push_cast
      rfl
    rw [hsel_eq, hcast]
  · intro hk
    subst hk
    have hne : List.insertionSort (fun a b : ℝ => a ≤ b) (densityDistances arrays target) ≠ [] := by
      apply List.length_pos.mp
      rw [hslen]
      omega
    obtain ⟨m, t, hmt⟩ := List.exists_cons_of_ne_nil hne
    have hsel1 : selectedDistances arrays target 1 = [m] := by
      rw [hsel_eq, hmt]
      rfl
    refine ⟨m, ?_, ?_, ?_⟩
    · exact hperm.mem_iff.mp (by rw [hmt]; exact List.mem_cons_self m t)
    · intro x hx
      have hxs : x ∈ List.insertionSort (fun a b : ℝ => a ≤ b) (densityDistances arrays target) :=
        hperm.mem_iff.mpr hx
      rw [hmt] at hxs
      rcases List.mem_cons.mp hxs with h | h
      · exact le_of_eq h.symm
      · have hs2 := hsort
        rw [hmt] at hs2
        exact List.rel_of_sorted_cons hs2 x h
    · rw [find_k_closest_avg, hsel1, if_neg (by simp)]
      norm_num

/-- Witness for `find_k_mean_of_k_smallest` with k = 1 on a two-vector
corpus. -/
theorem find_k_mean_of_k_smallest_witness :
    ∃ sel rest, List.Perm (densityDistances [[(0 : ℝ)], [(2 : ℝ)]] [(0 : ℝ)]) (sel ++ rest) ∧
      (sel.length : ℤ) = 1 ∧
      (∀ x ∈ sel, ∀ y ∈ rest, x ≤ y) ∧
      find_k_closest_avg [[(0 : ℝ)], [(2 : ℝ)]] [(0 : ℝ)] 1 = some (sel.sum / ((1 : ℤ) : ℝ)) ∧
      ((1 : ℤ) = 1 → ∃ m, m ∈ densityDistances [[(0 : ℝ)], [(2 : ℝ)]] [(0 : ℝ)] ∧
        (∀ d ∈ densityDistances [[(0 : ℝ)], [(2 : ℝ)]] [(0 : ℝ)], m ≤ d) ∧
        find_k_closest_avg [[(0 : ℝ)], [(2 : ℝ)]] [(0 : ℝ)] 1 = some m) :=
  find_k_mean_of_k_smallest [[(0 : ℝ)], [(2 : ℝ)]] [(0 : ℝ)] 1 (le_refl 1) (by simp)

/-- scipy's base-2 entropy of `n ≥ 1` copies of any non-zero constant
is `log2 n`: the normalisation divides the constant out. -/
theorem scipy_entropy_const (n : ℕ) (p : ℝ) (hn : 0 < n) (hp : p ≠ 0) :
    scipyEntropyBase2 ((List.range n).map fun _ => p) = some (Real.logb 2 n) := by
  have hnR : (n : ℝ) ≠ 0 := by
    exact_mod_cast hn.ne'
  have hrep : ((List.range n).map fun _ => p) = List.replicate n p := by
    rw [List.map_const', List.length_range]
  have hsum : (List.replicate n p).sum = (n : ℝ) * p := by
    rw [List.sum_replicate, nsmul_eq_mul]
  have hsne : (n : ℝ) * p ≠ 0 := mul_ne_zero hnR hp
  have hdiv : p / ((n : ℝ) * p) = 1 / (n : ℝ) := by
    rw [div_mul_eq_div_div_swap, div_self hp]
  rw [hrep, scipyEntropyBase2, if_neg, if_neg]
  · congr 1
    rw [hsum]
    have hmap : (List.replicate n p).map (fun x => x / ((n : ℝ) * p) *
        Real.log (x / ((n : ℝ) * p))) =
        List.replicate n (1 / (n : ℝ) * Real.log (1 / (n : ℝ))) := by
      rw [List.map_replicate, hdiv]
    rw [hmap, List.sum_replicate, nsmul_eq_mul, ← mul_assoc,
      mul_one_div_cancel hnR, one_mul, one_div, Real.log_inv, neg_neg, Real.log_div_log]
  · rintro ⟨x, hx, hlt⟩
    have hxp : x = p := List.eq_of_mem_replicate hx
    subst hxp
    rw [hsum, hdiv] at hlt
    have : (0 : ℝ) ≤ 1 / (n : ℝ) := by positivity
    exact absurd hlt (not_lt.mpr this)
  · rintro ⟨h0, -⟩
    rw [hsum] at h0
    exact hsne h0

/-- Claim C5: the `equal_vocab_probability` parameter is inert: the
baseline entropy of `n` copies of it is `log2 n` for every positive
value, so two positive values give identical scores on every non-empty
pairs sequence. -/
theorem equal_vocab_probability_inert {α : Type} (doc : List (α × ℝ)) (p q : ℝ)
    (hne : doc ≠ []) (hp : 0 < p) (hq : 0 < q) :
    scipyEntropyBase2 ((List.range doc.length).map fun _ => p) =
      some (Real.logb 2 doc.length) ∧
    information_of_statement doc p = information_of_statement doc q := by
  have hn : 0 < doc.length := List.length_pos.mpr hne
  have h1 := scipy_entropy_const doc.length p hn hp.ne'
  have h2 := scipy_entropy_const doc.length q hn hq.ne'
  refine ⟨h1, ?_⟩
  unfold information_of_statement
  rw [h1, h2]

/-- Witness for `equal_vocab_probability_inert` on a one-pair sequence
with parameter values 1 and 2. -/
theorem equal_vocab_probability_inert_witness :
    scipyEntropyBase2 ((List.range [((0 : ℝ), (1 : ℝ))].length).map fun _ => (1 : ℝ)) =
      some (Real.logb 2 [((0 : ℝ), (1 : ℝ))].length) ∧
    information_of_statement [((0 : ℝ), (1 : ℝ))] 1 =
      information_of_statement [((0 : ℝ), (1 : ℝ))] 2 :=
  equal_vocab_probability_inert [((0 : ℝ), (1 : ℝ))] 1 2 (by simp) one_pos two_pos

/-- Sum of a mapped difference splits into a difference of sums. -/
theorem list_sum_map_sub (l : List ℝ) (f g : ℝ → ℝ) :
    (l.map fun x => f x - g x).sum = (l.map f).sum - (l.map g).sum := by
  induction l with
  | nil => simp
  | cons a t ih =>
    simp only [List.map_cons, List.sum_cons, ih]
    ring

/-- Sum of a mapped addition splits into a sum of sums. -/
theorem list_sum_map_add (l : List ℝ) (f g : ℝ → ℝ) :
    (l.map fun x => f x + g x).sum = (l.map f).sum + (l.map g).sum := by
  induction l with
  | nil => simp
  | cons a t ih =>
    simp only [List.map_cons, List.sum_cons, ih]
    ring

/-- Dividing every element by a constant divides the sum. -/
theorem list_sum_map_div (l : List ℝ) (s : ℝ) :
    (l.map fun x => x / s).sum = l.sum / s := by
  induction l with
  | nil => simp
  | cons a t ih => simp only [List.map_cons, List.sum_cons, ih, add_div]

/-- A common right factor pulls out of a mapped sum. -/
theorem list_sum_map_mul_right (l : List ℝ) (f : ℝ → ℝ) (c : ℝ) :
    (l.map fun x => f x * c).sum = (l.map f).sum * c := by
  induction l with
  | nil => simp
  | cons a t ih => simp only [List.map_cons, List.sum_cons, ih, add_mul]

/-- A pointwise inequality that is strict at one member of the list
gives a strict inequality of the mapped sums. -/
theorem list_sum_lt_of_mem (f g : ℝ → ℝ) (x₀ : ℝ) :
    ∀ l : List ℝ, (∀ x ∈ l, f x ≤ g x) → x₀ ∈ l → f x₀ < g x₀ →
      (l.map f).sum < (l.map g).sum := by
  intro l
  induction l with
  | nil =>
    intro _ hx₀ _
    simp at hx₀
  | cons a t ih =>
    intro hle hx₀ hlt
    rw [List.map_cons, List.map_cons, List.sum_cons, List.sum_cons]
    rcases List.mem_cons.mp hx₀ with h | h
    · rw [← h]
      apply add_lt_add_of_lt_of_le hlt
      apply List.sum_le_sum
      intro x hx
      exact hle x (List.mem_cons_of_mem _ hx)
    · apply add_lt_add_of_le_of_lt (hle a (List.mem_cons_self a t))
      exact ih (fun x hx => hle x (List.mem_cons_of_mem _ hx)) h hlt

/-- The elementary inequality behind Gibbs' inequality:
`t - 1 ≤ t * ln t` for `t > 0`, strictly unless `t = 1`. -/
theorem mul_log_self_bound (t : ℝ) (ht : 0 < t) :
    t - 1 ≤ t * Real.log t ∧ (t ≠ 1 → t - 1 < t * Real.log t) := by
  constructor
  · have h1 : Real.log t⁻¹ ≤ t⁻¹ - 1 := Real.log_le_sub_one_of_pos (inv_pos.mpr ht)
    rw [Real.log_inv] at h1
    have h2 : t * (-Real.log t) ≤ t * (t⁻¹ - 1) := mul_le_mul_of_nonneg_left h1 ht.le
    rw [mul_sub, mul_inv_cancel₀ ht.ne'] at h2
    nlinarith
  · intro hne
    have h1 : Real.log t⁻¹ < t⁻¹ - 1 :=
      Real.log_lt_sub_one_of_pos (inv_pos.mpr ht) (by simpa using hne)
    rw [Real.log_inv] at h1
    have h2 : t * (-Real.log t) < t * (t⁻¹ - 1) := (mul_lt_mul_left ht).mpr h1
    rw [mul_sub, mul_inv_cancel₀ ht.ne'] at h2
    nlinarith

/-- Pointwise form of Gibbs' inequality for a normalised weight `u`
against the uniform weight `1 / n`: `u - 1/n ≤ u * ln (n * u)`,
strictly unless `u = 1/n`. -/
theorem gibbs_pointwise (n : ℕ) (hn : 0 < n) (u : ℝ) (hu : 0 ≤ u) :
    u - 1 / n ≤ u * Real.log (n * u) ∧
    (u ≠ 1 / n → u - 1 / n < u * Real.log (n * u)) := by
  have hnR : (0 : ℝ) < n := by exact_mod_cast hn
  rcases eq_or_lt_of_le hu with h0 | hpos
  · rw [← h0]
    have hlt : -(1 / (n : ℝ)) < 0 := by
      rw [neg_lt, neg_zero]
      positivity
    constructor
    · rw [zero_mul, zero_sub]
      exact hlt.le
    · intro _
      rw [zero_mul, zero_sub]
      exact hlt
  · have ht : (0 : ℝ) < (n : ℝ) * u := by positivity
    have key := mul_log_self_bound ((n : ℝ) * u) ht
    have e1 : u - 1 / (n : ℝ) = ((n : ℝ) * u - 1) / n := by
      rw [sub_div, mul_div_cancel_left₀ _ hnR.ne']
    have e2 : u * Real.log ((n : ℝ) * u) = (n : ℝ) * u * Real.log ((n : ℝ) * u) / n := by
      rw [mul_assoc, mul_div_cancel_left₀ _ hnR.ne']
    constructor
    · rw [e1, e2]
      exact (div_le_div_iff_of_pos_right hnR).mpr key.1
    · intro hune
      have htne : (n : ℝ) * u ≠ 1 := by
        intro hc
        apply hune
        rw [eq_div_iff hnR.ne', mul_comm]
        exact hc
      rw [e1, e2]
      exact (div_lt_div_iff_of_pos_right hnR).mpr (key.2 htne)

/-- Gibbs' inequality over a weight list with positive sum: the sum
`Σ (x/s) ln (n (x/s))` (which equals `ln n` minus the natural-log
entropy of the normalised weights) is non-negative, and vanishes
exactly when every weight equals the mean `s / n`. -/
theorem entropy_core (l : List ℝ) (hnn : ∀ x ∈ l, 0 ≤ x) (hs : 0 < l.sum) :
    0 ≤ (l.map fun x => x / l.sum * Real.log (l.length * (x / l.sum))).sum ∧
    ((l.map fun x => x / l.sum * Real.log (l.length * (x / l.sum))).sum = 0 ↔
      ∀ x ∈ l, x = l.sum / l.length) := by
  have hne : l ≠ [] := by
    intro hc
    rw [hc] at hs
    simp at hs
  have hn : 0 < l.length := List.length_pos.mpr hne
  have hnR : (0 : ℝ) < l.length := by exact_mod_cast hn
  have hgsum : (l.map fun x => x / l.sum - 1 / l.length).sum = 0 := by
    rw [list_sum_map_sub, list_sum_map_div, div_self hs.ne', List.map_const',
      List.sum_replicate, nsmul_eq_mul, mul_one_div_cancel hnR.ne', sub_self]
  have hpoint : ∀ x ∈ l, x / l.sum - 1 / l.length ≤
      x / l.sum * Real.log (l.length * (x / l.sum)) := fun x hx =>
    (gibbs_pointwise l.length hn (x / l.sum) (div_nonneg (hnn x hx) hs.le)).1
  have hle : 0 ≤ (l.map fun x => x / l.sum * Real.log (l.length * (x / l.sum))).sum := by
    rw [← hgsum]
    exact List.sum_le_sum hpoint
  refine ⟨hle, ?_, ?_⟩
  · intro hD
    by_contra hcon
    push_neg at hcon
    obtain ⟨x₀, hx₀, hne0⟩ := hcon
    have hu : x₀ / l.sum ≠ 1 / l.length := by
      intro hc
      apply hne0
      rw [div_eq_div_iff hs.ne' hnR.ne'] at hc
      rw [eq_div_iff hnR.ne']
      linarith
    have hstrict := (gibbs_pointwise l.length hn (x₀ / l.sum)
      (div_nonneg (hnn x₀ hx₀) hs.le)).2 hu
    have hlt := list_sum_lt_of_mem (fun x => x / l.sum - 1 / l.length)
      (fun x => x / l.sum * Real.log (l.length * (x / l.sum))) x₀ l hpoint hx₀ hstrict
    rw [hgsum, hD] at hlt
    exact lt_irrefl 0 hlt
  · intro hall
    apply List.sum_eq_zero
    intro y hy
    rcases List.mem_map.mp hy with ⟨x, hx, rfl⟩
    rw [hall x hx]
    have hd : l.sum / (l.length : ℝ) / l.sum = 1 / l.length := by
      rw [div_div, mul_comm, ← div_div, div_self hs.ne']
    rw [hd, mul_one_div_cancel hnR.ne', Real.log_one, mul_zero]

/-- With non-negative weights of positive sum, the Gibbs sum
decomposes as `ln n` plus the signed entropy sum `Σ (x/s) ln (x/s)`. -/
theorem entropy_decomp (l : List ℝ) (hnn : ∀ x ∈ l, 0 ≤ x) (hs : 0 < l.sum) :
    (l.map fun x => x / l.sum * Real.log (l.length * (x / l.sum))).sum =
      Real.log l.length + (l.map fun x => x / l.sum * Real.log (x / l.sum)).sum := by
  have hne : l ≠ [] := by
    intro hc
    rw [hc] at hs
    simp at hs
  have hn : 0 < l.length := List.length_pos.mpr hne
  have hnR : (0 : ℝ) < l.length := by exact_mod_cast hn
  have hpoint : ∀ x ∈ l, x / l.sum * Real.log (l.length * (x / l.sum)) =
      x / l.sum * Real.log l.length + x / l.sum * Real.log (x / l.sum) := by
    intro x hx
    rcases eq_or_lt_of_le (div_nonneg (hnn x hx) hs.le) with h0 | hpos
    · rw [← h0, zero_mul, zero_mul, zero_mul, add_zero]
    · rw [Real.log_mul hnR.ne' hpos.ne', mul_add]
  rw [List.map_congr_left hpoint, list_sum_map_add]
  congr 1
  rw [show (fun x => x / l.sum * Real.log (l.length : ℝ)) =
      fun x => (fun y => y / l.sum) x * Real.log (l.length : ℝ) from rfl,
    list_sum_map_mul_right, list_sum_map_div, div_self hs.ne', one_mul]

/-- Every weight equals the mean exactly when the weights are pairwise
equal (for a list with positive sum). -/
theorem all_eq_mean_iff_pairwise (l : List ℝ) :
    (∀ x ∈ l, x = l.sum / l.length) ↔ ∀ x ∈ l, ∀ y ∈ l, x = y := by
  constructor
  · intro h x hx y hy
    rw [h x hx, h y hy]
  · intro h x hx
    have hall : ∀ y ∈ l, y = x := fun y hy => h y hy x hx
    have hn0 : (l.length : ℝ) ≠ 0 := by
      have : 0 < l.length := List.length_pos.mpr (List.ne_nil_of_mem hx)
      exact_mod_cast this.ne'
    have hsum : l.sum = (l.length : ℝ) * x := by
      conv_lhs => rw [List.eq_replicate_length.mpr hall]
      rw [List.sum_replicate, nsmul_eq_mul]
    rw [hsum, mul_div_cancel_left₀ _ hn0]

/-- Claim C4, counterexample: the all-zero proxy sequence `[0, 0, 0]`
is non-empty with non-negative entries and pairwise equal proxies, yet
the score is NaN (`none`), neither `≥ 0` nor equal to 0. -/
theorem information_nonneg_counterexample :
    information_of_statement [(([] : Vec), (0 : ℝ)), ([], 0), ([], 0)] 1 = none := by
  unfold information_of_statement
  have hB : scipyEntropyBase2
      ([(([] : Vec), (0 : ℝ)), ([], 0), ([], 0)].map fun d => d.2) = none := by
    rw [scipyEntropyBase2, if_pos]
    exact ⟨by simp, by simp⟩
  rw [hB]
  cases scipyEntropyBase2 ((List.range
      [(([] : Vec), (0 : ℝ)), ([], 0), ([], 0)].length).map fun _ => (1 : ℝ)) <;> rfl

/-- Claim C4, amended: for every non-empty sequence of non-negative
density proxies whose sum is positive (not all zero) and positive
`equal_vocab_probability`, the score is a real number `≥ 0`, equal to
0 exactly when all the proxies are equal; when the proxies are all
zero the score is NaN (see the counterexample). -/
theorem information_nonneg_iff {α : Type} (doc : List (α × ℝ)) (p : ℝ) (hp : 0 < p)
    (hnn : ∀ x ∈ doc.map (fun d => d.2), 0 ≤ x)
    (hs : 0 < (doc.map (fun d => d.2)).sum) :
    ∃ r, information_of_statement doc p = some r ∧ 0 ≤ r ∧
      (r = 0 ↔ ∀ x ∈ doc.map (fun d => d.2), ∀ y ∈ doc.map (fun d => d.2), x = y) := by
  have hlne : doc.map (fun d => d.2) ≠ [] := by
    intro hc
    rw [hc] at hs
    simp at hs
  have hdocne : doc ≠ [] := fun hc => hlne (by rw [hc]; rfl)
  have hn : 0 < doc.length := List.length_pos.mpr hdocne
  have hnl : (doc.map (fun d => d.2)).length = doc.length := List.length_map _ _
  have hlog2 : (0 : ℝ) < Real.log 2 := Real.log_pos one_lt_two
  have harm : scipyEntropyBase2 (doc.map (fun d => d.2)) =
      some ((-((doc.map (fun d => d.2)).map fun x => x / (doc.map (fun d => d.2)).sum *
        Real.log (x / (doc.map (fun d => d.2)).sum)).sum) / Real.log 2) := by
    rw [scipyEntropyBase2, if_neg, if_neg]
    · rintro ⟨x, hx, hlt⟩
      exact absurd hlt (not_lt.mpr (div_nonneg (hnn x hx) hs.le))
    · rintro ⟨h0, -⟩
      rw [h0] at hs
      exact lt_irrefl 0 hs
  have hmax := scipy_entropy_const doc.length p hn hp.ne'
  set l := doc.map (fun d => d.2) with hl
  set D := (l.map fun x => x / l.sum * Real.log (l.length * (x / l.sum))).sum with hD
  have hcore := entropy_core l hnn hs
  have hdec := entropy_decomp l hnn hs
  refine ⟨D / Real.log 2, ?_, ?_, ?_⟩
  · unfold information_of_statement
    rw [hmax, ← hl, harm]
    show some (Real.logb 2 (doc.length : ℝ) -
      (-(l.map fun x => x / l.sum * Real.log (x / l.sum)).sum) / Real.log 2) =
      some (D / Real.log 2)
    congr 1
    rw [← Real.log_div_log, hD, hdec, hnl]
    ring
  · exact div_nonneg hcore.1 hlog2.le
  · rw [div_eq_zero_iff]
    constructor
    · rintro (h | h)
      · exact (all_eq_mean_iff_pairwise l).mp (hcore.2.mp h)
      · exact absurd h hlog2.ne'
    · intro h
      exact Or.inl (hcore.2.mpr ((all_eq_mean_iff_pairwise l).mpr h))

/-- Witness for `information_nonneg_iff` on the one-pair sequence with
proxy 1. -/
theorem information_nonneg_iff_witness :
    ∃ r, information_of_statement [((0 : ℝ), (1 : ℝ))] 1 = some r ∧ 0 ≤ r ∧
      (r = 0 ↔ ∀ x ∈ [((0 : ℝ), (1 : ℝ))].map (fun d => d.2),
        ∀ y ∈ [((0 : ℝ), (1 : ℝ))].map (fun d => d.2), x = y) :=
  information_nonneg_iff [((0 : ℝ), (1 : ℝ))] 1 one_pos (by simp) (by simp)
